import Mathlib

/-! Shallow embedding of the USAspending awards pipeline
(`usaspending_pipeline.py`): rate limiting, the `backoff`-wrapped HTTP
request method, the resilient downloader's streamed-fetch loop, bulk-job
status polling, date-range splitting with the auto-splitting backfill
driver, minimal deduplication, and incremental-search shard generation.
Dates are integers (ordinal day numbers, one unit = one day); wall-clock
times and sleep durations are rationals, modeling the Python floats. -/

/-! ## String helpers (Python `str.lower` and the `in` operator) -/

/-- Lowercase one ASCII character; models Python `str.lower` character-wise
on the ASCII statuses and backend messages the pipeline handles. -/
def pyLowerChar (c : Char) : Char :=
  if 'A' ≤ c ∧ c ≤ 'Z' then Char.ofNat (c.toNat + 32) else c

/-- `pyLower cs` models Python `s.lower()` on the character list of `s`. -/
def pyLower (cs : List Char) : List Char := cs.map pyLowerChar

/-- `charsLeadWith text pat` is true when `pat` occurs at the start of
`text`. -/
def charsLeadWith : List Char → List Char → Bool
  | _, [] => true
  | [], _ :: _ => false
  | t :: ts, p :: ps => t == p && charsLeadWith ts ps

/-- `containsSub text pat`: `pat` occurs as a contiguous substring of
`text`; models Python's `pat in text` on strings. -/
def containsSub : List Char → List Char → Bool
  | [], pat => pat.isEmpty
  | t :: ts, pat => charsLeadWith (t :: ts) pat || containsSub ts pat

/-- Python `min` on floats, modeled on `ℚ`. -/
def ratMin (a b : ℚ) : ℚ := if a ≤ b then a else b

/-- Python `max` on floats, modeled on `ℚ`. -/
def ratMax (a b : ℚ) : ℚ := if a ≤ b then b else a

/-! ## RateLimiter (usaspending_pipeline.py lines 100-112) -/

/-- `RateLimiter.__init__`: `self.min_interval = 1.0 / max(rps, 0.1)`. -/
def min_interval (rps : ℚ) : ℚ := 1 / ratMax rps (1 / 10)

/-- `RateLimiter.wait()` with `time.sleep` modeled as advancing an explicit
clock: `lastv` is `self._last`, `now` the clock when the call is made, and
the returned value is the clock when `wait` returns (which the method also
stores as the new `self._last`). -/
def rateWaitReturn (I lastv now : ℚ) : ℚ :=
  if now - lastv < I then now + (I - (now - lastv)) else now

/-- Return times of successive `wait()` calls after the first: each next
call is made `gap` after the previous call returned. -/
def rateRunGo (I : ℚ) : ℚ → List ℚ → List ℚ
  | _, [] => []
  | r, g :: gs => rateWaitReturn I r (r + g) :: rateRunGo I (rateWaitReturn I r (r + g)) gs

/-- Return times of `gaps.length + 1` consecutive `wait()` calls on one
`RateLimiter` with interval `I`, the first call made at clock `start`
(the constructor sets `self._last = 0.0`). -/
def rateRun (I start : ℚ) (gaps : List ℚ) : List ℚ :=
  rateWaitReturn I 0 start :: rateRunGo I (rateWaitReturn I 0 start) gaps

/-! ## Range arithmetic (usaspending_pipeline.py lines 333-344) -/

/-- `_days_between(start, end)`: inclusive day count `(e - s).days + 1`. -/
def _days_between (s e : ℤ) : ℤ := e - s + 1

/-- `_split_range(start, end)`: bisect at the midpoint into the two
inclusive halves `[(s, mid), (mid + 1, e)]` with `mid = s + (e - s) // 2`. -/
def _split_range (s e : ℤ) : List (ℤ × ℤ) :=
  [(s, s + (e - s) / 2), (s + (e - s) / 2 + 1, e)]

/-! ## Bulk-job status polling (usaspending_pipeline.py lines 346-433) -/

/-- Terminal outcome of the status-poll `while True` loop in
`_run_bulk_job_or_raise`, driven by the `(status, message)` pairs of
successive `download_status` polls; `stillPolling` marks a run that
exhausts the modeled polls with the loop still going. -/
inductive PollResult
  | backendException  -- raise "Backend exception while generating file"
  | finishedJob       -- status in {finished, ready, success}
  | failedStatus      -- status in {failed, error}: raise "Bulk job failed"
  | stillPolling
deriving DecidableEq, Repr

/-- The poll loop of `_run_bulk_job_or_raise`, with `cnt` the running value
of `consecutive_exception_msgs`. Mirrors the source order: the
exception-substring check (with its threshold raise) comes before the
terminal-status checks; the counter is incremented on every
exception-bearing message and is never reset by an exception-free poll. -/
def runBulkPollLoop : Nat → List (String × String) → PollResult
  | _, [] => .stillPolling
  | cnt, (statusRaw, msg) :: rest =>
    let status := pyLower statusRaw.data
    let hasExc := containsSub (pyLower msg.data) "exception".data
    let cnt' := if hasExc then cnt + 1 else cnt
    if hasExc ∧ 3 ≤ cnt' then .backendException
    else if status = "finished".data ∨ status = "ready".data ∨ status = "success".data then
      .finishedJob
    else if status = "failed".data ∨ status = "error".data then .failedStatus
    else runBulkPollLoop cnt' rest

/-- `_run_bulk_job_or_raise`'s polling phase starts the counter at 0. -/
def runBulkPoll (polls : List (String × String)) : PollResult :=
  runBulkPollLoop 0 polls

/-! ## httpx exceptions and the `_request` retry loop
(usaspending_pipeline.py lines 145-153) -/

/-- The `httpx` exception taxonomy relevant to the pipeline. In httpx both
constructors are subclasses of `httpx.HTTPError`. -/
inductive HttpxErr
  | transport                -- httpx.TransportError: connection failure, timeout
  | statusError (code : Nat) -- httpx.HTTPStatusError from raise_for_status
deriving DecidableEq, Repr

/-- Membership in `(httpx.HTTPError,)`, the exception tuple given to
`backoff.on_exception`: true for every `HttpxErr`, since `TransportError`
and `HTTPStatusError` both derive from `HTTPError`. -/
def isHTTPError : HttpxErr → Bool := fun _ => true

/-- What one HTTP attempt produces before exception handling: a transport
error, or a response bearing a status code. -/
inductive HttpAttempt
  | transportError
  | response (status : Nat)
deriving DecidableEq, Repr

/-- `Response.raise_for_status()`: raises `HTTPStatusError` on a non-2xx
status, otherwise returns normally. -/
def raise_for_status (status : Nat) : Option HttpxErr :=
  if 200 ≤ status ∧ status < 300 then none else some (.statusError status)

/-- The exception (if any) escaping the body of `USAClient._request` on one
attempt: the HTTP call itself, then `resp.raise_for_status()`. -/
def requestAttemptRaises : HttpAttempt → Option HttpxErr
  | .transportError => some .transport
  | .response c => raise_for_status c

/-- Result of the `backoff`-wrapped `_request`: a successful attempt's
response, an exception re-raised to the caller, or `horizonExhausted` when
the modeled attempt list runs out with the retry loop still going. -/
inductive RequestResult
  | ok (resp : HttpAttempt)
  | raised (e : HttpxErr)
  | horizonExhausted
deriving DecidableEq, Repr

/-- The retry loop of
`@backoff.on_exception(backoff.expo, (httpx.HTTPError,), max_time=180)`
around `USAClient._request`. `attempts` lists what each successive attempt
produces, `jw k` is the (jittered) expo wait `backoff` draws for retry `k`,
and `elapsed` the time since the first attempt (attempt durations are taken
as zero, so elapsed time is the accumulated sleep). Per the backoff
library, an exception matching `(httpx.HTTPError,)` is re-raised once
`elapsed` has reached `max_time = 180`; otherwise the loop sleeps
`min(wait, max_time - elapsed)` and retries. An exception not matching the
tuple would propagate at once. Returns the result with the final elapsed
time. -/
def requestLoop (jw : Nat → ℚ) : List HttpAttempt → Nat → ℚ → RequestResult × ℚ
  | [], _, elapsed => (.horizonExhausted, elapsed)
  | o :: rest, k, elapsed =>
    match requestAttemptRaises o with
    | none => (.ok o, elapsed)
    | some err =>
      if isHTTPError err then
        if 180 ≤ elapsed then (.raised err, elapsed)
        else requestLoop jw rest (k + 1) (elapsed + ratMin (jw k) (180 - elapsed))
      else (.raised err, elapsed)

/-- `USAClient._request`, modeled over its attempt sequence: the backoff
loop entered at attempt index 0 with zero elapsed time. -/
def _request (jw : Nat → ℚ) (attempts : List HttpAttempt) : RequestResult × ℚ :=
  requestLoop jw attempts 0 0

/-! ## Streamed fetch of `_download_file`
(usaspending_pipeline.py lines 305-327) -/

/-- Classification of one iteration of the streamed-fetch `while True`
loop in `_download_file`. -/
inductive FetchStep
  | done                 -- body written to disk, return
  | retry                -- fall through to the sleep-and-retry tail
  | fatal (e : HttpxErr) -- an exception escaping the loop
deriving DecidableEq, Repr

/-- The `try` block of one streamed-fetch iteration: 200 streams the body
and returns; 403/404/429/5xx logs and falls through; any other status
reaches `r.raise_for_status()`, which raises only on non-2xx.
`.ok true` = returned, `.ok false` = fell through, `.error` = raised. -/
def streamTryBlock : HttpAttempt → Except HttpxErr Bool
  | .transportError => .error .transport
  | .response c =>
    if c = 200 then .ok true
    else if c = 403 ∨ c = 404 ∨ c = 429 ∨ (500 ≤ c ∧ c < 600) then .ok false
    else
      match raise_for_status c with
      | some e => .error e
      | none => .ok false

/-- One streamed-fetch iteration together with its `except httpx.HTTPError`
handler: a caught exception is logged and falls through to the retry
sleep; an uncaught one would escape the loop (`fatal`). -/
def fetchAttemptStep (o : HttpAttempt) : FetchStep :=
  match streamTryBlock o with
  | .ok true => .done
  | .ok false => .retry
  | .error e => if isHTTPError e then .retry else .fatal e

/-- Result of the streamed-fetch phase over the modeled attempts. -/
inductive FetchResult
  | success (o : HttpAttempt)
  | failed (e : HttpxErr)
  | stillRetrying
deriving DecidableEq, Repr

/-- The streamed-fetch loop of `_download_file`, threading `backoff_sec`
(updated by `backoff_sec = min(backoff_sec * 1.5, 45.0)` after each
sleep). Returns the result and the list of sleeps performed; an exhausted
attempt list leaves the unbounded `while True` loop still retrying. -/
def fetchLoop : List HttpAttempt → ℚ → FetchResult × List ℚ
  | [], _ => (.stillRetrying, [])
  | o :: rest, b =>
    match fetchAttemptStep o with
    | .done => (.success o, [])
    | .fatal e => (.failed e, [])
    | .retry => ((fetchLoop rest (ratMin (b * (3 / 2)) 45)).1,
                 b :: (fetchLoop rest (ratMin (b * (3 / 2)) 45)).2)

/-- The streamed-fetch phase of `_download_file` starts with
`backoff_sec = 2.0`. -/
def _download_file_fetch (attempts : List HttpAttempt) : FetchResult × List ℚ :=
  fetchLoop attempts 2

/-! ## Auto-splitting backfill driver
(usaspending_pipeline.py lines 435-475) -/

/-- The `RuntimeError`s that `_run_bulk_job_or_raise` can raise; all are
caught alike by the bare `except RuntimeError` in `_attempt`. -/
inductive JobError
  | missingFileName  -- "Bulk start failed": submission response has no file_name
  | missingFileUrl   -- "No file_url on finished job"
  | backendException -- the three-exception-message heuristic fired
  | jobFailed        -- polled status in {failed, error}
deriving DecidableEq, Repr

/-- Observable behavior of one `_attempt(s, e)` call: the date ranges
submitted as bulk jobs in submission order, the depth of range-splitting
performed, and the `RuntimeError` propagated to the caller (if any). -/
structure AttemptOutcome where
  trace : List (ℤ × ℤ)
  levels : Nat
  result : Option JobError
deriving DecidableEq, Repr

/-- The recursive closure `_attempt(s, e)` inside `bulk_backfill_awards`:
run the bulk job for `[s, e]`; on a `RuntimeError`, when
`_days_between(s, e) > min_split_days` retry the two `_split_range` halves
in order, else re-raise. `backend s e` is the `RuntimeError` (if any) that
`_run_bulk_job_or_raise` produces for that range. The second half is
attempted only when the first succeeds, because an exception from the
first recursive call propagates out of the `for` loop. `hM` records that
`min_split_days` is positive (the default is 7), which is what makes the
recursion well-founded; the midpoint below is exactly
`_split_range s e = [(s, mid), (mid + 1, e)]`. -/
def _attempt (backend : ℤ → ℤ → Option JobError) (M : ℤ) (hM : 1 ≤ M)
    (s e : ℤ) : AttemptOutcome :=
  match backend s e with
  | none => ⟨[(s, e)], 0, none⟩
  | some err =>
    if _h : M < _days_between s e then
      let mid := s + (e - s) / 2
      let r1 := _attempt backend M hM s mid
      match r1.result with
      | some err1 => ⟨(s, e) :: r1.trace, 1 + r1.levels, some err1⟩
      | none =>
        let r2 := _attempt backend M hM (mid + 1) e
        ⟨(s, e) :: (r1.trace ++ r2.trace), 1 + max r1.levels r2.levels, r2.result⟩
    else ⟨[(s, e)], 0, some err⟩
termination_by (e - s).toNat
decreasing_by
  · simp only [_days_between] at _h; omega
  · simp only [_days_between] at _h; omega

/-- `AWARD_TYPE_GROUPS`: the fixed award-group vocabulary
(usaspending_pipeline.py lines 71-78). -/
def AWARD_TYPE_GROUPS : List (String × List String) :=
  [("contracts", ["A", "B", "C", "D"]),
   ("loans", ["07", "08"]),
   ("idvs", ["IDV_A", "IDV_B", "IDV_B_A", "IDV_B_B", "IDV_B_C", "IDV_C", "IDV_D", "IDV_E"]),
   ("grants", ["02", "03", "04", "05"]),
   ("other_fin_ast", ["06", "10"]),
   ("direct_payments", ["09", "11", "-1"])]

/-- The groups `bulk_backfill_awards` actually submits jobs for:
`groups = award_types or ["contracts"]`, and any group not in
`AWARD_TYPE_GROUPS` is logged with a warning and skipped (`continue`),
not treated as an error. -/
def bulkBackfillGroups (award_types : List String) : List String :=
  (if award_types = [] then ["contracts"] else award_types).filter
    (fun g => (AWARD_TYPE_GROUPS.lookup g).isSome)

/-! ## Minimal dedup (usaspending_pipeline.py lines 207-220) -/

/-- A pandas DataFrame, abstracted to its column list and its rows; a row
maps column names to cell values via association-list `lookup`. -/
structure Frame where
  cols : List String
  rows : List (List (String × String))
deriving DecidableEq, Repr

/-- `keys = [c for c in ["Award ID", "Start Date", "End Date",
"Last Modified Date"] if c in df.columns]`. -/
def dedupeKeyCols (df : Frame) : List String :=
  ["Award ID", "Start Date", "End Date", "Last Modified Date"].filter
    (fun c => c ∈ df.cols)

/-- The key tuple of a row: its values at the key columns (a missing cell
reads as `none`; pandas treats missing values as equal for dedup). -/
def rowKey (keys : List String) (r : List (String × String)) : List (Option String) :=
  keys.map (fun c => r.lookup c)

/-- pandas `DataFrame.drop_duplicates(subset=keys)` with the default
`keep="first"`: keep, in order, each row whose key has not been seen
before; `seen` is the set of keys already kept. -/
def dropDuplicatesGo {α β : Type} [DecidableEq β] (key : α → β) :
    List β → List α → List α
  | _, [] => []
  | seen, r :: rest =>
    if key r ∈ seen then dropDuplicatesGo key seen rest
    else r :: dropDuplicatesGo key (key r :: seen) rest

/-- `df.drop_duplicates(subset=keys)` starts with nothing seen. -/
def drop_duplicates {α β : Type} [DecidableEq β] (key : α → β) (rows : List α) : List α :=
  dropDuplicatesGo key [] rows

/-- `dedupe_minimal(df)`: dedupe on whichever of the four key columns are
present; with no key column present the frame passes through unchanged. -/
def dedupe_minimal (df : Frame) : Frame :=
  if dedupeKeyCols df = [] then df
  else { df with rows := drop_duplicates (rowKey (dedupeKeyCols df)) df.rows }

/-! ## Incremental search sharding
(usaspending_pipeline.py lines 481-503) -/

/-- One pass of the `while current <= end` loop in `shard_iter`: the next
cursor value `shard_end + 1`, where
`shard_end = min(current + timedelta(days=chunk_days - 1), end)`. -/
def shardCursorStep (chunk e cur : ℤ) : ℤ := min (cur + chunk - 1) e + 1

/-- The cursor after `n` iterations of the `shard_iter` loop. -/
def shardCursorIter (chunk e : ℤ) : Nat → ℤ → ℤ
  | 0, cur => cur
  | n + 1, cur => shardCursorIter chunk e n (shardCursorStep chunk e cur)

/-- The date windows produced by `shard_iter`'s loop. `fuel` bounds the
number of iterations modeled; `windows` supplies fuel `(e + 1 - s).toNat`,
which suffices whenever `chunk ≥ 1` (the loop then consumes at least one
day of `[s, e]` per window). -/
def windowsAux (chunk e : ℤ) : Nat → ℤ → List (ℤ × ℤ)
  | 0, _ => []
  | fuel + 1, cur =>
    if cur ≤ e then
      (cur, min (cur + chunk - 1) e) :: windowsAux chunk e fuel (shardCursorStep chunk e cur)
    else []

/-- The inclusive date windows `shard_iter` walks over `[s, e]`. -/
def windows (s e chunk : ℤ) : List (ℤ × ℤ) := windowsAux chunk e (e + 1 - s).toNat s

/-- `shard_iter(start_date, end_date, groups, agencies, chunk_days)`:
for each date window, yield `(group, shard_start, shard_end, agency)` for
every group and agency, with the source's defaulting
`groups = groups or ["contracts"]` and `agencies = agencies or [None]`
(both `None` and `[]` give the single no-filter placeholder). -/
def shard_iter (s e : ℤ) (groups : List String) (agencies : List String)
    (chunk : ℤ) : List (String × ℤ × ℤ × Option String) :=
  (windows s e chunk).flatMap (fun w =>
    (if groups = [] then ["contracts"] else groups).flatMap (fun g =>
      (if agencies = [] then [none] else agencies.map some).map (fun a =>
        (g, w.1, w.2, a))))

/-- `chainCover lo hi ws`: `ws` is a gapless, overlap-free list of
inclusive windows covering `[lo, hi]` exactly: each window starts where
the cover so far ends, is nonempty, stays within `hi`, and the windows
exhaust the range. -/
def chainCover : ℤ → ℤ → List (ℤ × ℤ) → Bool
  | lo, hi, [] => lo == hi + 1
  | lo, hi, (a, b) :: ws =>
    a == lo && decide (lo ≤ b) && decide (b ≤ hi) && chainCover (b + 1) hi ws

/-! ## Helper lemmas -/

theorem ratMin_le_right (a b : ℚ) : ratMin a b ≤ b := by
  unfold ratMin; split <;> linarith

theorem ratMin_nonneg {a b : ℚ} (ha : 0 ≤ a) (hb : 0 ≤ b) : 0 ≤ ratMin a b := by
  unfold ratMin; split <;> assumption

theorem min_interval_eq {rps : ℚ} (hrps : 1 / 10 ≤ rps) :
    min_interval rps = 1 / rps := by
  unfold min_interval ratMax
  split
  · next h => rw [le_antisymm h hrps]
  · rfl

theorem rateWaitReturn_ge (I r g : ℚ) : r + I ≤ rateWaitReturn I r (r + g) := by
  unfold rateWaitReturn
  split <;> [linarith; linarith]

/-! ## C1 -/

/-- C1 (code bug witness): the backend-exception heuristic of
`_run_bulk_job_or_raise` is not "three consecutive polls":
`consecutive_exception_msgs` is incremented but never reset, so on a poll
sequence whose three exception-bearing messages are separated by
exception-free polls — where the claim (and the counter's own name) say
the heuristic must not fire — the loop still raises the backend-exception
error. -/
theorem runBulkPoll_nonconsecutive_exceptions_raise :
    runBulkPoll
      [("running", "raised an Exception in worker"), ("running", ""),
       ("running", "raised an Exception in worker"), ("running", ""),
       ("running", "raised an Exception in worker")] = .backendException := by
  decide

/-! ## C2 -/

/-- C2: on every range of at least two days, `_split_range` returns exactly
two inclusive halves; the first starts at `s`, the second ends at `e`, the
first ends immediately before the second starts, both are nonempty, their
day-sets partition `[s, e]` with no gap and no overlap, and their day
counts differ by at most one. -/
theorem split_range_partition (s e : ℤ) (_hse : s ≤ e)
    (hD : 2 ≤ _days_between s e) :
    ∃ a b : ℤ × ℤ, _split_range s e = [a, b] ∧
      a.1 = s ∧ b.2 = e ∧ a.2 + 1 = b.1 ∧ a.1 ≤ a.2 ∧ b.1 ≤ b.2 ∧
      (∀ d : ℤ, ((a.1 ≤ d ∧ d ≤ a.2) ∨ (b.1 ≤ d ∧ d ≤ b.2)) ↔ (s ≤ d ∧ d ≤ e)) ∧
      (∀ d : ℤ, ¬((a.1 ≤ d ∧ d ≤ a.2) ∧ (b.1 ≤ d ∧ d ≤ b.2))) ∧
      ((a.2 - a.1 + 1) - (b.2 - b.1 + 1)).natAbs ≤ 1 := by
  simp only [_days_between] at hD
  refine ⟨(s, s + (e - s) / 2), (s + (e - s) / 2 + 1, e), rfl, rfl, rfl, rfl,
    by omega, by omega, fun d => by omega, fun d => by omega, by omega⟩

/-- C2 witness: the partition property evaluated on the concrete ten-day
range `[0, 9]`, which `_split_range` cuts into `[0, 4]` and `[5, 9]`. -/
theorem split_range_partition_witness :
    _split_range 0 9 = [(0, 4), (5, 9)] ∧
    (∃ a b : ℤ × ℤ, _split_range 0 9 = [a, b] ∧
      a.1 = 0 ∧ b.2 = 9 ∧ a.2 + 1 = b.1 ∧ a.1 ≤ a.2 ∧ b.1 ≤ b.2 ∧
      (∀ d : ℤ, ((a.1 ≤ d ∧ d ≤ a.2) ∨ (b.1 ≤ d ∧ d ≤ b.2)) ↔ (0 ≤ d ∧ d ≤ 9)) ∧
      (∀ d : ℤ, ¬((a.1 ≤ d ∧ d ≤ a.2) ∧ (b.1 ≤ d ∧ d ≤ b.2))) ∧
      ((a.2 - a.1 + 1) - (b.2 - b.1 + 1)).natAbs ≤ 1) :=
  ⟨by decide, split_range_partition 0 9 (by decide) (by decide)⟩

/-! ## C9 -/

theorem rateRunGo_chain (I : ℚ) (gaps : List ℚ) :
    ∀ r : ℚ, List.Chain' (fun a b => a + I ≤ b) (r :: rateRunGo I r gaps) := by
  induction gaps with
  | nil => intro r; simp [rateRunGo]
  | cons g gs ih =>
    intro r
    rw [rateRunGo, List.chain'_cons]
    exact ⟨rateWaitReturn_ge I r g, ih _⟩

theorem rateRunGo_getLast (I : ℚ) (gaps : List ℚ) :
    ∀ r l : ℚ, (r :: rateRunGo I r gaps).getLast? = some l →
      r + gaps.length * I ≤ l := by
  induction gaps with
  | nil =>
    intro r l hl
    simp [rateRunGo] at hl
    simp [hl]
  | cons g gs ih =>
    intro r l hl
    rw [rateRunGo, List.getLast?_cons_cons] at hl
    have := ih (rateWaitReturn I r (r + g)) l hl
    have := rateWaitReturn_ge I r g
    simp only [List.length_cons]
    push_cast
    linarith

/-- C9 counterexample: the claim fails for configured rates below 0.1
even though they are positive. With `rps = 1/20 > 0` the constructor
clamps `min_interval = 1.0 / max(rps, 0.1)` to 10 seconds, so two
consecutive `wait()` calls (the second made immediately after the first
returns) are spaced only 10 seconds apart, although
`(N - 1) * (1 / rps) = 20`. -/
theorem rate_limiter_claim_fails_below_point_one :
    (0 : ℚ) < 1 / 20 ∧
    rateRun (min_interval (1 / 20)) 100 [0] = [100, 110] ∧
    ¬ ((2 - 1 : ℚ) * (1 / (1 / 20)) ≤ 110 - 100) := by
  refine ⟨by norm_num, ?_, by norm_num⟩
  norm_num [rateRun, rateRunGo, rateWaitReturn, min_interval, ratMax]

/-- C9 amended: `wait()` enforces the clamped interval
`min_interval = 1 / max(rps, 0.1)`, so for every `rps ≥ 0.1` — where the
clamp is inactive and `min_interval = 1/rps` — consecutive returns are at
least `1/rps` apart and `N = gaps.length + 1` calls span at least
`(N - 1) * (1/rps)`; below 0.1 the enforced spacing is only 10 seconds. -/
theorem rate_limiter_spacing (rps start : ℚ) (gaps : List ℚ)
    (hrps : 1 / 10 ≤ rps) :
    List.Chain' (fun a b => a + 1 / rps ≤ b)
      (rateRun (min_interval rps) start gaps) ∧
    ∀ l, (rateRun (min_interval rps) start gaps).getLast? = some l →
      rateWaitReturn (min_interval rps) 0 start + gaps.length * (1 / rps) ≤ l := by
  rw [rateRun, min_interval_eq hrps]
  exact ⟨rateRunGo_chain _ gaps _, fun l hl => rateRunGo_getLast _ gaps _ l hl⟩

/-- C9 witness: three back-to-back `wait()` calls at `rps = 1` return at
clocks 1, 2, 3, spaced exactly one second apart. -/
theorem rate_limiter_spacing_witness :
    rateRun (min_interval 1) 0 [0, 0] = [1, 2, 3] ∧
    List.Chain' (fun a b => a + 1 / 1 ≤ b) (rateRun (min_interval 1) 0 [0, 0]) ∧
    ∀ l, (rateRun (min_interval 1) 0 [0, 0]).getLast? = some l →
      rateWaitReturn (min_interval 1) 0 0 + ([0, 0] : List ℚ).length * (1 / 1) ≤ l :=
  ⟨by norm_num [rateRun, rateRunGo, rateWaitReturn, min_interval, ratMax],
   (rate_limiter_spacing 1 0 [0, 0] (by norm_num)).1,
   (rate_limiter_spacing 1 0 [0, 0] (by norm_num)).2⟩

/-! ## C3 -/

theorem requestLoop_elapsed_le (jw : Nat → ℚ) (L : List HttpAttempt) :
    ∀ (k : Nat) (e0 : ℚ), e0 ≤ 180 → (requestLoop jw L k e0).2 ≤ 180 := by
  induction L with
  | nil => intro k e0 h0; simpa [requestLoop] using h0
  | cons o rest ih =>
    intro k e0 h0
    rw [requestLoop]
    rcases hr : requestAttemptRaises o with _ | err
    · simpa using h0
    · simp only [isHTTPError, if_true]
      split
      · simpa using h0
      · exact ih (k + 1) _ (by have := ratMin_le_right (jw k) (180 - e0); linarith)

theorem requestLoop_ok (jw : Nat → ℚ) (L : List HttpAttempt) :
    ∀ (k : Nat) (e0 : ℚ) (v : HttpAttempt), (requestLoop jw L k e0).1 = .ok v →
      requestAttemptRaises v = none ∧
      ∃ L1 L2, L = L1 ++ v :: L2 ∧
        ∀ u ∈ L1, ∃ err, requestAttemptRaises u = some err := by
  induction L with
  | nil => intro k e0 v hv; simp [requestLoop] at hv
  | cons o rest ih =>
    intro k e0 v hv
    rw [requestLoop] at hv
    rcases hr : requestAttemptRaises o with _ | err
    · rw [hr] at hv
      simp only [RequestResult.ok.injEq] at hv
      subst hv
      exact ⟨hr, [], rest, rfl, by simp⟩
    · rw [hr] at hv
      simp only [isHTTPError, if_true] at hv
      split at hv
      · simp at hv
      · obtain ⟨hvnone, L1, L2, hL, hall⟩ := ih _ _ v hv
        refine ⟨hvnone, o :: L1, L2, by simp [hL], ?_⟩
        intro u hu
        rcases List.mem_cons.mp hu with h | h
        · exact ⟨err, h ▸ hr⟩
        · exact hall u h

theorem requestLoop_raised (jw : Nat → ℚ) (L : List HttpAttempt) :
    ∀ (k : Nat) (e0 : ℚ) (err : HttpxErr), (requestLoop jw L k e0).1 = .raised err →
      180 ≤ (requestLoop jw L k e0).2 ∧
      ∃ u ∈ L, requestAttemptRaises u = some err := by
  induction L with
  | nil => intro k e0 err h; simp [requestLoop] at h
  | cons o rest ih =>
    intro k e0 err h
    rw [requestLoop] at h ⊢
    rcases hr : requestAttemptRaises o with _ | err'
    · rw [hr] at h; simp at h
    · rw [hr] at h
      simp only [isHTTPError, if_true] at h ⊢
      split at h
      · next hbudget =>
        simp only [RequestResult.raised.injEq] at h
        subst h
        rw [if_pos hbudget]
        exact ⟨by simpa using hbudget, o, by simp, hr⟩
      · next hbudget =>
        rw [if_neg hbudget]
        obtain ⟨h1, u, hu, hu2⟩ := ih _ _ err h
        exact ⟨h1, u, by simp [hu], hu2⟩

/-- C3 counterexample: the claim that a non-2xx response "is raised to the
caller immediately and is never retried automatically by the wrapper" is
false. `backoff.on_exception` is keyed on `httpx.HTTPError`, whose
subclasses include the `HTTPStatusError` raised by `raise_for_status`, so
with a first attempt answering 500 and a second answering 200, `_request`
sleeps once (here with a jitter draw of 1s) and returns the 200 response
instead of surfacing the 500 error. -/
theorem request_retries_non_2xx :
    _request (fun _ => 1) [.response 500, .response 200] =
      (.ok (.response 200), 1) := by
  norm_num [_request, requestLoop, requestAttemptRaises, raise_for_status,
    isHTTPError, ratMin]

/-- C3 amended: every exception the request body can raise — transport
errors AND the `HTTPStatusError` of every non-2xx response — matches the
`(httpx.HTTPError,)` retry tuple, so both kinds are retried with backoff;
total elapsed (sleep) time never exceeds the 180s `max_time` budget; the
wrapper returns the first attempt that raises nothing (a 2xx response),
every earlier attempt having raised and been retried; and an error is
re-raised to the caller only once the 180s budget is exhausted. -/
theorem request_retry_contract (jw : Nat → ℚ) (L : List HttpAttempt)
    (k : Nat) (e0 : ℚ) (h0 : e0 ≤ 180) :
    (∀ c, ¬(200 ≤ c ∧ c < 300) →
      requestAttemptRaises (.response c) = some (.statusError c) ∧
      isHTTPError (.statusError c) = true) ∧
    (requestLoop jw L k e0).2 ≤ 180 ∧
    (∀ v, (requestLoop jw L k e0).1 = .ok v →
      requestAttemptRaises v = none ∧
      ∃ L1 L2, L = L1 ++ v :: L2 ∧
        ∀ u ∈ L1, ∃ err, requestAttemptRaises u = some err) ∧
    (∀ err, (requestLoop jw L k e0).1 = .raised err →
      180 ≤ (requestLoop jw L k e0).2 ∧
      ∃ u ∈ L, requestAttemptRaises u = some err) :=
  ⟨fun c hc => ⟨by simp [requestAttemptRaises, raise_for_status, hc], rfl⟩,
   requestLoop_elapsed_le jw L k e0 h0,
   fun v => requestLoop_ok jw L k e0 v,
   fun err => requestLoop_raised jw L k e0 err⟩

/-- C3 witness: the retry contract evaluated at a concrete run — a
transport error followed by a 200, starting from zero elapsed time. -/
theorem request_retry_contract_witness :
    (0 : ℚ) ≤ 180 ∧
    ((∀ c, ¬(200 ≤ c ∧ c < 300) →
      requestAttemptRaises (.response c) = some (.statusError c) ∧
      isHTTPError (.statusError c) = true) ∧
    (requestLoop (fun _ => 1) [.transportError, .response 200] 0 0).2 ≤ 180 ∧
    (∀ v, (requestLoop (fun _ => 1) [.transportError, .response 200] 0 0).1 = .ok v →
      requestAttemptRaises v = none ∧
      ∃ L1 L2, ([.transportError, .response 200] : List HttpAttempt) = L1 ++ v :: L2 ∧
        ∀ u ∈ L1, ∃ err, requestAttemptRaises u = some err) ∧
    (∀ err, (requestLoop (fun _ => 1) [.transportError, .response 200] 0 0).1 = .raised err →
      180 ≤ (requestLoop (fun _ => 1) [.transportError, .response 200] 0 0).2 ∧
      ∃ u ∈ ([.transportError, .response 200] : List HttpAttempt),
        requestAttemptRaises u = some err)) :=
  ⟨by norm_num,
   request_retry_contract (fun _ => 1) [.transportError, .response 200] 0 0 (by norm_num)⟩

/-! ## C8 -/

theorem fetchAttemptStep_transport : fetchAttemptStep .transportError = .retry := by
  simp [fetchAttemptStep, streamTryBlock, isHTTPError]

theorem fetchAttemptStep_200 : fetchAttemptStep (.response 200) = .done := by
  simp [fetchAttemptStep, streamTryBlock]

theorem fetchAttemptStep_response_ne {c : Nat} (hc : c ≠ 200) :
    fetchAttemptStep (.response c) = .retry := by
  by_cases h1 : c = 403 ∨ c = 404 ∨ c = 429 ∨ (500 ≤ c ∧ c < 600)
  · simp [fetchAttemptStep, streamTryBlock, if_neg hc, if_pos h1]
  · by_cases h2 : 200 ≤ c ∧ c < 300
    · simp [fetchAttemptStep, streamTryBlock, if_neg hc, if_neg h1,
        raise_for_status, if_pos h2]
    · simp [fetchAttemptStep, streamTryBlock, if_neg hc, if_neg h1,
        raise_for_status, if_neg h2, isHTTPError]

theorem fetchAttemptStep_done_iff (o : HttpAttempt) :
    fetchAttemptStep o = .done ↔ o = .response 200 := by
  rcases o with _ | c
  · rw [fetchAttemptStep_transport]; simp
  · by_cases hc : c = 200
    · subst hc; rw [fetchAttemptStep_200]; simp
    · rw [fetchAttemptStep_response_ne hc]; simp [hc]

theorem fetchAttemptStep_ne_fatal (o : HttpAttempt) (e : HttpxErr) :
    fetchAttemptStep o ≠ .fatal e := by
  rcases o with _ | c
  · rw [fetchAttemptStep_transport]; simp
  · by_cases hc : c = 200
    · subst hc; rw [fetchAttemptStep_200]; simp
    · rw [fetchAttemptStep_response_ne hc]; simp

theorem fetchLoop_never_failed (L : List HttpAttempt) :
    ∀ (b : ℚ) (e : HttpxErr), (fetchLoop L b).1 ≠ .failed e := by
  induction L with
  | nil => intro b e; simp [fetchLoop]
  | cons o rest ih =>
    intro b e
    rw [fetchLoop]
    rcases hstep : fetchAttemptStep o with _ | _ | e'
    · simp
    · simpa using ih _ e
    · exact absurd hstep (fetchAttemptStep_ne_fatal o e')

theorem fetchLoop_stillRetrying_iff (L : List HttpAttempt) :
    ∀ b : ℚ, (fetchLoop L b).1 = .stillRetrying ↔ .response 200 ∉ L := by
  induction L with
  | nil => intro b; simp [fetchLoop]
  | cons o rest ih =>
    intro b
    rw [fetchLoop]
    rcases hstep : fetchAttemptStep o with _ | _ | e'
    · have ho : o = .response 200 := (fetchAttemptStep_done_iff o).mp hstep
      simp [ho]
    · have ho : o ≠ .response 200 := by
        intro h
        rw [h, fetchAttemptStep_200] at hstep
        exact FetchStep.noConfusion hstep
      simp only []
      rw [ih, List.mem_cons, not_or]
      constructor
      · exact fun h => ⟨fun heq => ho heq.symm, h⟩
      · exact fun h => h.2
    · exact absurd hstep (fetchAttemptStep_ne_fatal o e')

theorem fetchLoop_sleeps_bounded (L : List HttpAttempt) :
    ∀ b : ℚ, 0 ≤ b → b ≤ 45 → ∀ q ∈ (fetchLoop L b).2, 0 ≤ q ∧ q ≤ 45 := by
  induction L with
  | nil => intro b _ _ q hq; simp [fetchLoop] at hq
  | cons o rest ih =>
    intro b hb0 hb45 q hq
    rw [fetchLoop] at hq
    rcases hstep : fetchAttemptStep o with _ | _ | e'
    · rw [hstep] at hq; simp at hq
    · rw [hstep] at hq
      simp only [List.mem_cons] at hq
      rcases hq with rfl | hq
      · exact ⟨hb0, hb45⟩
      · exact ih _ (ratMin_nonneg (by linarith) (by norm_num))
          (ratMin_le_right _ _) q hq
    · exact absurd hstep (fetchAttemptStep_ne_fatal o e')

/-- C8 counterexample: the claim that "any other status causes the
download to fail immediately, surfacing the error to the caller" is false.
A 401 reaches `r.raise_for_status()`, but the raised `HTTPStatusError` is
an `httpx.HTTPError` and is caught by the `except` clause of the same
`try` block, so the loop backs off (sleeping the initial 2s) and retries;
with the next attempt answering 200 the download succeeds. -/
theorem download_fetch_retries_other_status :
    _download_file_fetch [.response 401, .response 200] =
      (.success (.response 200), [2]) ∧
    (_download_file_fetch [.response 401]).1 ≠ .failed (.statusError 401) := by
  constructor
  · norm_num [_download_file_fetch, fetchLoop, fetchAttemptStep, streamTryBlock,
      raise_for_status, isHTTPError, ratMin]
  · exact fetchLoop_never_failed [.response 401] 2 (.statusError 401)

/-- C8 amended: in the streamed fetch of `_download_file`, a 200 streams
the body and returns; EVERY other outcome — the retryable statuses
403/404/429/5xx, transport errors, any other error status (whose
`raise_for_status` exception is caught by the same `except httpx.HTTPError`
handler), and non-200 2xx statuses (which just fall through) — leads to a
backoff sleep and another attempt. No outcome makes the loop fail
immediately; the sleeps follow `backoff = min(backoff * 1.5, 45)` and stay
within `[0, 45]`; and over any finite attempt horizon without a 200, the
unbounded `while True` loop is still retrying. -/
theorem download_fetch_contract (L : List HttpAttempt) (b : ℚ)
    (hb0 : 0 ≤ b) (hb45 : b ≤ 45) :
    (∀ o, fetchAttemptStep o = .done ↔ o = .response 200) ∧
    (∀ o e, fetchAttemptStep o ≠ .fatal e) ∧
    (∀ e, (fetchLoop L b).1 ≠ .failed e) ∧
    ((fetchLoop L b).1 = .stillRetrying ↔ .response 200 ∉ L) ∧
    (∀ q ∈ (fetchLoop L b).2, 0 ≤ q ∧ q ≤ 45) :=
  ⟨fetchAttemptStep_done_iff, fetchAttemptStep_ne_fatal,
   fetchLoop_never_failed L b, fetchLoop_stillRetrying_iff L b,
   fetchLoop_sleeps_bounded L b hb0 hb45⟩

/-- C8 witness: the fetch contract evaluated on a concrete run — a
transport error with the starting 2-second backoff. -/
theorem download_fetch_contract_witness :
    (0 : ℚ) ≤ 2 ∧ (2 : ℚ) ≤ 45 ∧
    ((∀ o, fetchAttemptStep o = .done ↔ o = .response 200) ∧
    (∀ o e, fetchAttemptStep o ≠ .fatal e) ∧
    (∀ e, (fetchLoop [.transportError] 2).1 ≠ .failed e) ∧
    ((fetchLoop [.transportError] 2).1 = .stillRetrying ↔
      .response 200 ∉ ([.transportError] : List HttpAttempt)) ∧
    (∀ q ∈ (fetchLoop [.transportError] 2).2, 0 ≤ q ∧ q ≤ 45)) :=
  ⟨by norm_num, by norm_num,
   download_fetch_contract [.transportError] 2 (by norm_num) (by norm_num)⟩

/-! ## C6 -/

theorem dropDuplicatesGo_sublist {α β : Type} [DecidableEq β] (key : α → β)
    (xs : List α) : ∀ seen, List.Sublist (dropDuplicatesGo key seen xs) xs := by
  induction xs with
  | nil => intro seen; simp [dropDuplicatesGo]
  | cons r rest ih =>
    intro seen
    rw [dropDuplicatesGo]
    split
    · exact (ih seen).trans (List.sublist_cons_self r rest)
    · exact (ih (key r :: seen)).cons₂ r

theorem dropDuplicatesGo_mem_key {α β : Type} [DecidableEq β] (key : α → β)
    (xs : List α) : ∀ seen (b : β),
      b ∈ (dropDuplicatesGo key seen xs).map key ↔ b ∈ xs.map key ∧ b ∉ seen := by
  induction xs with
  | nil => intro seen b; simp [dropDuplicatesGo]
  | cons r rest ih =>
    intro seen b
    rw [dropDuplicatesGo]
    split
    · next hseen =>
      rw [ih seen b]
      simp only [List.map_cons, List.mem_cons]
      constructor
      · exact fun h => ⟨Or.inr h.1, h.2⟩
      · rintro ⟨h | h, hb⟩
        · exact absurd (h ▸ hseen) hb
        · exact ⟨h, hb⟩
    · next hseen =>
      simp only [List.map_cons, List.mem_cons, ih (key r :: seen) b, not_or]
      by_cases hb : b = key r
      · subst hb; simp [hseen]
      · simp [hb]

theorem dropDuplicatesGo_nodup {α β : Type} [DecidableEq β] (key : α → β)
    (xs : List α) : ∀ seen, ((dropDuplicatesGo key seen xs).map key).Nodup := by
  induction xs with
  | nil => intro seen; simp [dropDuplicatesGo]
  | cons r rest ih =>
    intro seen
    rw [dropDuplicatesGo]
    split
    · exact ih seen
    · simp only [List.map_cons, List.nodup_cons]
      refine ⟨fun hmem => ?_, ih (key r :: seen)⟩
      exact ((dropDuplicatesGo_mem_key key rest (key r :: seen) (key r)).mp hmem).2
        (List.mem_cons_self _ _)

theorem dropDuplicatesGo_first_mem {α β : Type} [DecidableEq β] (key : α → β)
    (l1 : List α) : ∀ (x : α) (l2 : List α) (seen : List β),
      (∀ y ∈ l1, key y ≠ key x) → key x ∉ seen →
      x ∈ dropDuplicatesGo key seen (l1 ++ x :: l2) := by
  induction l1 with
  | nil =>
    intro x l2 seen _ hx
    rw [List.nil_append, dropDuplicatesGo, if_neg hx]
    exact List.mem_cons_self x _
  | cons y l1' ih =>
    intro x l2 seen hne hx
    rw [List.cons_append, dropDuplicatesGo]
    have hyx : key y ≠ key x := hne y (List.mem_cons_self y l1')
    have hne' : ∀ z ∈ l1', key z ≠ key x := fun z hz => hne z (List.mem_cons_of_mem y hz)
    split
    · exact ih x l2 seen hne' hx
    · exact List.mem_cons_of_mem y
        (ih x l2 (key y :: seen) hne'
          (by simp only [List.mem_cons, not_or]; exact ⟨fun h => hyx h.symm, hx⟩))

theorem drop_duplicates_length {α β : Type} [DecidableEq β] (key : α → β)
    (xs : List α) : (drop_duplicates key xs).length = (xs.map key).toFinset.card := by
  have hnd : ((drop_duplicates key xs).map key).Nodup := dropDuplicatesGo_nodup key xs []
  have hset : ((drop_duplicates key xs).map key).toFinset = (xs.map key).toFinset := by
    apply Finset.ext
    intro b
    simp only [List.mem_toFinset]
    rw [drop_duplicates, dropDuplicatesGo_mem_key key xs [] b]
    simp
  calc (drop_duplicates key xs).length
      = ((drop_duplicates key xs).map key).length := (List.length_map _ _).symm
    _ = ((drop_duplicates key xs).map key).toFinset.card :=
        (List.toFinset_card_of_nodup hnd).symm
    _ = (xs.map key).toFinset.card := by rw [hset]

/-- C6: `dedupe_minimal` on a frame with at least one key column present
keeps the columns, keeps a subsequence of the rows (original order) whose
key tuples are pairwise distinct, has exactly one row per distinct key
tuple of the input (so the row count is the number of distinct key
tuples), and contains every row that is the first occurrence of its key
tuple; on a frame with none of the key columns it is the identity. -/
theorem dedupe_minimal_spec (df : Frame) :
    (dedupeKeyCols df ≠ [] →
      (dedupe_minimal df).cols = df.cols ∧
      (dedupe_minimal df).rows.length =
        ((df.rows.map (rowKey (dedupeKeyCols df))).toFinset.card) ∧
      List.Sublist (dedupe_minimal df).rows df.rows ∧
      ((dedupe_minimal df).rows.map (rowKey (dedupeKeyCols df))).Nodup ∧
      (∀ l1 x l2, df.rows = l1 ++ x :: l2 →
        (∀ y ∈ l1, rowKey (dedupeKeyCols df) y ≠ rowKey (dedupeKeyCols df) x) →
        x ∈ (dedupe_minimal df).rows)) ∧
    (dedupeKeyCols df = [] → dedupe_minimal df = df) := by
  constructor
  · intro hkeys
    rw [dedupe_minimal, if_neg hkeys]
    refine ⟨rfl, drop_duplicates_length _ _, dropDuplicatesGo_sublist _ _ [],
      dropDuplicatesGo_nodup _ _ [], ?_⟩
    intro l1 x l2 hrows hfirst
    rw [hrows]
    exact dropDuplicatesGo_first_mem _ l1 x l2 [] hfirst (by simp)
  · intro hkeys
    rw [dedupe_minimal, if_pos hkeys]

/-- C6 witness: on a concrete frame with the `Award ID` key column and a
duplicated key, `dedupe_minimal` keeps the first occurrence of each of the
two distinct keys, and the proved row-count characterization holds. -/
theorem dedupe_minimal_spec_witness :
    dedupeKeyCols (Frame.mk ["Award ID"]
      [[("Award ID", "A1")], [("Award ID", "A1")], [("Award ID", "B7")]]) ≠ [] ∧
    dedupe_minimal (Frame.mk ["Award ID"]
        [[("Award ID", "A1")], [("Award ID", "A1")], [("Award ID", "B7")]]) =
      Frame.mk ["Award ID"] [[("Award ID", "A1")], [("Award ID", "B7")]] ∧
    (dedupe_minimal (Frame.mk ["Award ID"]
        [[("Award ID", "A1")], [("Award ID", "A1")], [("Award ID", "B7")]])).rows.length =
      ((Frame.mk ["Award ID"]
        [[("Award ID", "A1")], [("Award ID", "A1")], [("Award ID", "B7")]]).rows.map
          (rowKey (dedupeKeyCols (Frame.mk ["Award ID"]
            [[("Award ID", "A1")], [("Award ID", "A1")],
             [("Award ID", "B7")]])))).toFinset.card :=
  ⟨by decide, by decide,
   ((dedupe_minimal_spec (Frame.mk ["Award ID"]
      [[("Award ID", "A1")], [("Award ID", "A1")], [("Award ID", "B7")]])).1
     (by decide)).2.1⟩

/-! ## C7 -/

theorem windowsAux_nil_of_gt (chunk e : ℤ) (fuel : Nat) (cur : ℤ) (h : e < cur) :
    windowsAux chunk e fuel cur = [] := by
  cases fuel with
  | zero => rfl
  | succ n => rw [windowsAux, if_neg (by omega)]

theorem windowsAux_chainCover (chunk e : ℤ) (hchunk : 1 ≤ chunk) :
    ∀ (fuel : Nat) (cur : ℤ), cur ≤ e → (e + 1 - cur).toNat ≤ fuel →
      chainCover cur e (windowsAux chunk e fuel cur) = true := by
  intro fuel
  induction fuel with
  | zero => intro cur hcur hfuel; omega
  | succ n ih =>
    intro cur hcur hfuel
    have hstep : min (cur + chunk - 1) e + 1 = shardCursorStep chunk e cur := rfl
    rw [windowsAux, if_pos hcur, chainCover]
    simp only [Bool.and_eq_true, beq_iff_eq, decide_eq_true_eq]
    refine ⟨⟨⟨trivial, by omega⟩, by omega⟩, ?_⟩
    rw [hstep]
    by_cases hnext : shardCursorStep chunk e cur ≤ e
    · exact ih (shardCursorStep chunk e cur) hnext
        (by simp only [shardCursorStep] at hnext ⊢; omega)
    · rw [windowsAux_nil_of_gt chunk e n _ (by omega), chainCover]
      simp only [beq_iff_eq, decide_eq_true_eq]
      simp only [shardCursorStep] at hnext ⊢
      omega

theorem windowsAux_size (chunk e : ℤ) (hchunk : 1 ≤ chunk) :
    ∀ (fuel : Nat) (cur : ℤ), ∀ w ∈ windowsAux chunk e fuel cur,
      w.1 ≤ w.2 ∧ w.2 - w.1 + 1 ≤ chunk := by
  intro fuel
  induction fuel with
  | zero => intro cur w hw; simp [windowsAux] at hw
  | succ n ih =>
    intro cur w hw
    rw [windowsAux] at hw
    split at hw
    · next hcur =>
      rcases List.mem_cons.mp hw with rfl | hw
      · constructor <;> simp <;> omega
      · exact ih _ w hw
    · simp at hw

theorem chainCover_bounds (ws : List (ℤ × ℤ)) :
    ∀ lo hi : ℤ, chainCover lo hi ws = true →
      ∀ w ∈ ws, lo ≤ w.1 ∧ w.1 ≤ w.2 ∧ w.2 ≤ hi := by
  induction ws with
  | nil => intro lo hi _ w hw; simp at hw
  | cons p ws ih =>
    intro lo hi h w hw
    obtain ⟨a, b⟩ := p
    rw [chainCover] at h
    simp only [Bool.and_eq_true, beq_iff_eq, decide_eq_true_eq] at h
    obtain ⟨⟨⟨ha, hab⟩, hbhi⟩, hrest⟩ := h
    rcases List.mem_cons.mp hw with rfl | hw
    · exact ⟨le_of_eq ha.symm, by simpa [ha] using hab, hbhi⟩
    · have := ih (b + 1) hi hrest w hw
      exact ⟨by omega, this.2.1, this.2.2⟩

theorem chainCover_coverage (ws : List (ℤ × ℤ)) :
    ∀ lo hi : ℤ, chainCover lo hi ws = true →
      ∀ d : ℤ, (lo ≤ d ∧ d ≤ hi) ↔ ∃ w ∈ ws, w.1 ≤ d ∧ d ≤ w.2 := by
  induction ws with
  | nil =>
    intro lo hi h d
    rw [chainCover] at h
    simp only [beq_iff_eq] at h
    simp [h]
    omega
  | cons p ws ih =>
    intro lo hi h d
    obtain ⟨a, b⟩ := p
    rw [chainCover] at h
    simp only [Bool.and_eq_true, beq_iff_eq, decide_eq_true_eq] at h
    obtain ⟨⟨⟨ha, hab⟩, hbhi⟩, hrest⟩ := h
    subst ha
    have hih := ih (b + 1) hi hrest d
    simp only [List.mem_cons]
    constructor
    · intro hd
      by_cases hdb : d ≤ b
      · exact ⟨(a, b), Or.inl rfl, hd.1, hdb⟩
      · obtain ⟨w, hw, hwd⟩ := hih.mp ⟨by omega, hd.2⟩
        exact ⟨w, Or.inr hw, hwd⟩
    · rintro ⟨w, rfl | hw, hwd⟩
      · exact ⟨hwd.1, le_trans hwd.2 hbhi⟩
      · have := hih.mpr ⟨w, hw, hwd⟩
        exact ⟨by omega, this.2⟩

theorem chainCover_pairwise (ws : List (ℤ × ℤ)) :
    ∀ lo hi : ℤ, chainCover lo hi ws = true →
      ws.Pairwise (fun w w2 => w.2 < w2.1) := by
  induction ws with
  | nil => intro lo hi _; exact List.Pairwise.nil
  | cons p ws ih =>
    intro lo hi h
    obtain ⟨a, b⟩ := p
    rw [chainCover] at h
    simp only [Bool.and_eq_true, beq_iff_eq, decide_eq_true_eq] at h
    obtain ⟨⟨⟨ha, hab⟩, hbhi⟩, hrest⟩ := h
    refine List.Pairwise.cons ?_ (ih (b + 1) hi hrest)
    intro w hw
    have := chainCover_bounds ws (b + 1) hi hrest w hw
    omega

theorem shard_iter_mem (s e chunk : ℤ) (groups agencies : List String)
    (hg : groups ≠ []) (g : String) (sw ew : ℤ) (a : Option String) :
    (g, sw, ew, a) ∈ shard_iter s e groups agencies chunk ↔
      (sw, ew) ∈ windows s e chunk ∧ g ∈ groups ∧
      a ∈ (if agencies = [] then [none] else agencies.map some) := by
  simp only [shard_iter, if_neg hg, List.mem_flatMap, List.mem_map]
  constructor
  · rintro ⟨w, hw, g', hg', a', ha', heq⟩
    simp only [Prod.mk.injEq] at heq
    obtain ⟨rfl, h1, h2, rfl⟩ := heq
    refine ⟨?_, hg', ha'⟩
    rw [← h1, ← h2, Prod.mk.eta]
    exact hw
  · rintro ⟨hw, hg', ha'⟩
    exact ⟨(sw, ew), hw, g, hg', a, ha', rfl⟩

/-- C7: for `start ≤ end`, `chunk_days ≥ 1` and a non-empty group list,
the date windows walked by `shard_iter` form a gapless, overlap-free,
inclusive cover of `[s, e]` (consecutive windows abut), each window spans
at most `chunk_days` days, each day of the range lies in some window and
the windows are pairwise disjoint; every yielded shard is exactly one
window crossed with one requested group and one agency (a single
no-filter placeholder when no agencies are given); and the concrete range
2024-09-01..2024-09-10 (days 1..10 of September) with `chunk_days = 7`
yields exactly the windows 09-01..09-07 and 09-08..09-10. -/
theorem shard_iter_cover (s e chunk : ℤ) (groups agencies : List String)
    (hse : s ≤ e) (hchunk : 1 ≤ chunk) (hg : groups ≠ []) :
    chainCover s e (windows s e chunk) = true ∧
    (∀ w ∈ windows s e chunk, w.1 ≤ w.2 ∧ w.2 - w.1 + 1 ≤ chunk) ∧
    (∀ d : ℤ, (s ≤ d ∧ d ≤ e) ↔ ∃ w ∈ windows s e chunk, w.1 ≤ d ∧ d ≤ w.2) ∧
    (windows s e chunk).Pairwise (fun w w2 => w.2 < w2.1) ∧
    (∀ g sw ew a, (g, sw, ew, a) ∈ shard_iter s e groups agencies chunk ↔
      (sw, ew) ∈ windows s e chunk ∧ g ∈ groups ∧
      a ∈ (if agencies = [] then [none] else agencies.map some)) ∧
    windows 1 10 7 = [(1, 7), (8, 10)] := by
  have hcc : chainCover s e (windows s e chunk) = true :=
    windowsAux_chainCover chunk e hchunk _ s hse (by omega)
  exact ⟨hcc, fun w hw => windowsAux_size chunk e hchunk _ s w hw,
    chainCover_coverage _ s e hcc, chainCover_pairwise _ s e hcc,
    fun g sw ew a => shard_iter_mem s e chunk groups agencies hg g sw ew a,
    by decide⟩

/-- C7 witness: the cover contract evaluated on the concrete September
range, days 1..10, with `chunk_days = 7` and the contracts group. -/
theorem shard_iter_cover_witness :
    (1 : ℤ) ≤ 10 ∧ (1 : ℤ) ≤ 7 ∧ (["contracts"] : List String) ≠ [] ∧
    (chainCover 1 10 (windows 1 10 7) = true ∧
    (∀ w ∈ windows 1 10 7, w.1 ≤ w.2 ∧ w.2 - w.1 + 1 ≤ 7) ∧
    (∀ d : ℤ, (1 ≤ d ∧ d ≤ 10) ↔ ∃ w ∈ windows 1 10 7, w.1 ≤ d ∧ d ≤ w.2) ∧
    (windows 1 10 7).Pairwise (fun w w2 => w.2 < w2.1) ∧
    (∀ g sw ew a, (g, sw, ew, a) ∈ shard_iter 1 10 ["contracts"] [] 7 ↔
      (sw, ew) ∈ windows 1 10 7 ∧ g ∈ (["contracts"] : List String) ∧
      a ∈ (if ([] : List String) = [] then [none] else [].map some)) ∧
    windows 1 10 7 = [(1, 7), (8, 10)]) :=
  ⟨by decide, by decide, by decide,
   shard_iter_cover 1 10 7 ["contracts"] [] (by decide) (by decide) (by decide)⟩

/-! ## C10 -/

theorem shardCursor_no_advance (chunk e : ℤ) (hc : chunk ≤ 0) :
    ∀ (n : Nat) (cur : ℤ), cur ≤ e → shardCursorIter chunk e n cur ≤ e := by
  intro n
  induction n with
  | zero => intro cur hcur; exact hcur
  | succ n ih =>
    intro cur hcur
    rw [shardCursorIter]
    have hstep : shardCursorStep chunk e cur = cur + chunk := by
      simp only [shardCursorStep]; omega
    exact ih _ (by omega)

theorem shardCursor_stays_past (chunk e : ℤ) (hc : 1 ≤ chunk) :
    ∀ (n : Nat) (cur : ℤ), e < cur → e < shardCursorIter chunk e n cur := by
  intro n
  induction n with
  | zero => intro cur hcur; exact hcur
  | succ n ih =>
    intro cur hcur
    rw [shardCursorIter]
    have hstep : e < shardCursorStep chunk e cur := by
      simp only [shardCursorStep]; omega
    exact ih _ hstep

theorem shardCursor_progress (chunk e : ℤ) (hc : 1 ≤ chunk) :
    ∀ (n : Nat) (cur : ℤ),
      e < shardCursorIter chunk e n cur ∨
      cur + (n : ℤ) ≤ shardCursorIter chunk e n cur := by
  intro n
  induction n with
  | zero => intro cur; right; simp [shardCursorIter]
  | succ n ih =>
    intro cur
    rw [shardCursorIter]
    by_cases hcur : e < cur
    · exact Or.inl (shardCursor_stays_past chunk e hc n _
        (by simp only [shardCursorStep]; omega))
    · have hstep : cur + 1 ≤ shardCursorStep chunk e cur := by
        simp only [shardCursorStep]; omega
      rcases ih (shardCursorStep chunk e cur) with h | h
      · exact Or.inl h
      · right; push_cast; omega

/-- C10: with `start ≤ end`, the `shard_iter` cursor loop escapes its
`while current <= end` guard exactly when `chunk_days ≥ 1`: for
`chunk_days ≥ 1` the cursor passes `end` within `end - start + 1`
iterations (so `windows`' fuel suffices and the generator is finite),
while for every `chunk_days ≤ 0` the cursor moves by `chunk_days ≤ 0`
each round and never advances past `end`, so the generator keeps yielding
forever and the incremental driver cannot terminate. -/
theorem shard_cursor_termination_iff (s e chunk : ℤ) (hse : s ≤ e) :
    ((∃ n : Nat, e < shardCursorIter chunk e n s) ↔ 1 ≤ chunk) ∧
    (chunk ≤ 0 → ∀ n : Nat, shardCursorIter chunk e n s ≤ e) ∧
    (1 ≤ chunk → e < shardCursorIter chunk e (e + 1 - s).toNat s) := by
  have hno : chunk ≤ 0 → ∀ n : Nat, shardCursorIter chunk e n s ≤ e :=
    fun hc n => shardCursor_no_advance chunk e hc n s hse
  have hterm : 1 ≤ chunk → e < shardCursorIter chunk e (e + 1 - s).toNat s := by
    intro hc
    rcases shardCursor_progress chunk e hc (e + 1 - s).toNat s with h | h
    · exact h
    · omega
  refine ⟨⟨?_, fun hc => ⟨_, hterm hc⟩⟩, hno, hterm⟩
  rintro ⟨n, hn⟩
  by_contra hcneg
  exact absurd hn (not_lt.mpr (hno (by omega) n))

/-- C10 witness: on the ten-day range 1..10, a `chunk_days` of 7
terminates (the cursor reaches 11 after two iterations), and the
degenerate `chunk_days = 0` leaves the cursor at 1 forever — evaluated
here after three iterations. -/
theorem shard_cursor_termination_iff_witness :
    (1 : ℤ) ≤ 10 ∧
    ((∃ n : Nat, (10 : ℤ) < shardCursorIter 7 10 n 1) ↔ (1 : ℤ) ≤ 7) ∧
    ((0 : ℤ) ≤ 0 → ∀ n : Nat, shardCursorIter 0 10 n 1 ≤ 10) ∧
    shardCursorIter 7 10 2 1 = 11 ∧ shardCursorIter 0 10 3 1 = 1 :=
  ⟨by decide, (shard_cursor_termination_iff 1 10 7 (by decide)).1,
   fun h => ((shard_cursor_termination_iff 1 10 0 (by decide)).2).1 h,
   by decide, by decide⟩

/-! ## C4 -/

theorem attempt_trace_ne_nil (backend : ℤ → ℤ → Option JobError) (M : ℤ)
    (hM : 1 ≤ M) (s e : ℤ) : (_attempt backend M hM s e).trace ≠ [] := by
  rw [_attempt.eq_def]
  rcases backend s e with _ | err
  · simp
  · simp only []
    split
    · split <;> simp
    · simp

theorem attempt_leaf (backend : ℤ → ℤ → Option JobError) (M : ℤ) (hM : 1 ≤ M)
    (s e : ℤ) (err : JobError) (hd : _days_between s e ≤ M)
    (hb : backend s e = some err) :
    _attempt backend M hM s e = ⟨[(s, e)], 0, some err⟩ := by
  rw [_attempt.eq_def, hb]
  simp only []
  rw [dif_neg (show ¬ M < _days_between s e by omega)]

theorem attempt_splits_on_error (backend : ℤ → ℤ → Option JobError) (M : ℤ)
    (hM : 1 ≤ M) (s e : ℤ) (err : JobError) (hb : backend s e = some err)
    (hsplit : M < _days_between s e) :
    1 ≤ (_attempt backend M hM s e).levels ∧
    2 ≤ (_attempt backend M hM s e).trace.length := by
  rw [_attempt.eq_def, hb]
  simp only []
  rw [dif_pos hsplit]
  have h1 : (_attempt backend M hM s (s + (e - s) / 2)).trace ≠ [] :=
    attempt_trace_ne_nil backend M hM s (s + (e - s) / 2)
  have h1' : 1 ≤ (_attempt backend M hM s (s + (e - s) / 2)).trace.length :=
    List.length_pos.mpr h1
  rcases hr1 : (_attempt backend M hM s (s + (e - s) / 2)).result with _ | err1
  · simp only [hr1]
    constructor
    · simp
    · simp only [List.length_cons, List.length_append]
      omega
  · simp only [hr1]
    constructor
    · simp
    · simp only [List.length_cons]
      omega

/-- C4 counterexample: a bulk submission whose response lacks `file_name`
raises the same `RuntimeError` type the splitting driver catches, so the
error is NOT fatal immediately: on a 16-day range (days 0..15) with the
default `min_split_days = 7`, `_attempt` submits the full range, bisects,
submits days 0..7, bisects again and submits days 0..3 — two levels of
range-bisection retries and three submissions — before the configuration
error finally propagates. -/
theorem attempt_retries_missing_file_name :
    _attempt (fun _ _ => some .missingFileName) 7 (by norm_num) 0 15 =
      ⟨[(0, 15), (0, 7), (0, 3)], 2, some .missingFileName⟩ := by
  simp [_attempt, _days_between]

/-- C4 amended: the `RuntimeError`s for a missing job identifier and a
missing file URL are caught by the driver's blanket `except RuntimeError`
like any backend failure, so whenever the window exceeds `min_split_days`
they are converted into a range-bisection retry (at least one split level
and at least two submissions); only on windows of at most `min_split_days`
days does the error propagate immediately with a single submission. An
unknown award group is not fatal either: it is skipped with a warning
while the remaining groups are still processed. -/
theorem attempt_config_error_handling (backend : ℤ → ℤ → Option JobError)
    (M : ℤ) (hM : 1 ≤ M) (s e : ℤ) (err : JobError) :
    (backend s e = some err → M < _days_between s e →
      1 ≤ (_attempt backend M hM s e).levels ∧
      2 ≤ (_attempt backend M hM s e).trace.length) ∧
    (backend s e = some err → _days_between s e ≤ M →
      _attempt backend M hM s e = ⟨[(s, e)], 0, some err⟩) ∧
    (∀ g, AWARD_TYPE_GROUPS.lookup g = none → g ∉ bulkBackfillGroups [g]) ∧
    (∀ g gs, AWARD_TYPE_GROUPS.lookup g = none →
      bulkBackfillGroups (g :: gs) =
        gs.filter (fun g2 => (AWARD_TYPE_GROUPS.lookup g2).isSome)) := by
  refine ⟨fun hb hsplit => attempt_splits_on_error backend M hM s e err hb hsplit,
    fun hb hd => attempt_leaf backend M hM s e err hd hb, ?_, ?_⟩
  · intro g hg hmem
    rw [bulkBackfillGroups] at hmem
    rw [if_neg (by simp)] at hmem
    simp only [List.mem_filter, hg] at hmem
    exact absurd hmem.2 (by simp)
  · intro g gs hg
    rw [bulkBackfillGroups, if_neg (by simp), List.filter_cons]
    simp [hg]

/-- C4 witness: the amended handling evaluated concretely — a
missing-`file_url` error on an 8-day window splits (two submissions), the
same error on a 7-day window propagates at once, and the unknown group
"loand" is skipped while "grants" survives. -/
theorem attempt_config_error_handling_witness :
    ((fun _ _ => some JobError.missingFileUrl : ℤ → ℤ → Option JobError) 0 7 =
        some .missingFileUrl ∧ (7 : ℤ) < _days_between 0 7 ∧
      1 ≤ (_attempt (fun _ _ => some .missingFileUrl) 7 (by norm_num) 0 7).levels ∧
      2 ≤ (_attempt (fun _ _ => some .missingFileUrl) 7 (by norm_num) 0 7).trace.length) ∧
    (_attempt (fun _ _ => some .missingFileUrl) 7 (by norm_num) 0 6 =
      ⟨[(0, 6)], 0, some .missingFileUrl⟩) ∧
    "loand" ∉ bulkBackfillGroups ["loand", "grants"] ∧
    bulkBackfillGroups ["loand", "grants"] = ["grants"] := by
  refine ⟨⟨rfl, by decide, ?_, ?_⟩, ?_, by decide, by decide⟩
  · exact ((attempt_config_error_handling (fun _ _ => some .missingFileUrl) 7
      (by norm_num) 0 7 .missingFileUrl).1 rfl (by decide)).1
  · exact ((attempt_config_error_handling (fun _ _ => some .missingFileUrl) 7
      (by norm_num) 0 7 .missingFileUrl).1 rfl (by decide)).2
  · exact (attempt_config_error_handling (fun _ _ => some .missingFileUrl) 7
      (by norm_num) 0 6 .missingFileUrl).2.1 rfl (by decide)

/-! ## C5 -/

theorem attempt_levels_le (backend : ℤ → ℤ → Option JobError) (M : ℤ)
    (hM : 1 ≤ M) : ∀ (k : Nat) (s e : ℤ), _days_between s e ≤ M * 2 ^ k →
      (_attempt backend M hM s e).levels ≤ k := by
  intro k
  induction k with
  | zero =>
    intro s e hd
    simp only [pow_zero, mul_one] at hd
    rw [_attempt.eq_def]
    rcases backend s e with _ | err
    · simp
    · simp only []
      rw [dif_neg (show ¬ M < _days_between s e by omega)]
  | succ k ih =>
    intro s e hd
    rw [_attempt.eq_def]
    rcases backend s e with _ | err
    · simp
    · simp only []
      by_cases hsplit : M < _days_between s e
      · rw [dif_pos hsplit]
        have h2k : (0 : ℤ) < 2 ^ k := pow_pos (by norm_num) k
        have hP : (1 : ℤ) ≤ M * 2 ^ k := by nlinarith
        have hd' : _days_between s e ≤ 2 * (M * 2 ^ k) := by
          have hpow : M * 2 ^ (k + 1) = 2 * (M * 2 ^ k) := by ring
          linarith [hpow ▸ hd]
        have ih1 := ih s (s + (e - s) / 2)
          (by simp only [_days_between] at hsplit hd' ⊢; omega)
        have ih2 := ih (s + (e - s) / 2 + 1) e
          (by simp only [_days_between] at hsplit hd' ⊢; omega)
        rcases hr1 : (_attempt backend M hM s (s + (e - s) / 2)).result with _ | err1
        · simp only [hr1]
          omega
        · simp only [hr1]
          omega
      · rw [dif_neg hsplit]
        simp

theorem attempt_trace_valid_aux (backend : ℤ → ℤ → Option JobError) (M : ℤ)
    (hM : 1 ≤ M) : ∀ (n : Nat) (s e : ℤ), (e - s).toNat ≤ n → s ≤ e →
      ∀ p ∈ (_attempt backend M hM s e).trace, p.1 ≤ p.2 := by
  intro n
  induction n with
  | zero =>
    intro s e hn hse p hp
    rw [_attempt.eq_def] at hp
    rcases hb : backend s e with _ | err
    · rw [hb] at hp
      simp at hp
      simp [hp, hse]
    · rw [hb] at hp
      simp only [] at hp
      rw [dif_neg (show ¬ M < _days_between s e by
        simp only [_days_between]; omega)] at hp
      simp at hp
      simp [hp, hse]
  | succ n ih =>
    intro s e hn hse p hp
    rw [_attempt.eq_def] at hp
    rcases hb : backend s e with _ | err
    · rw [hb] at hp
      simp at hp
      simp [hp, hse]
    · rw [hb] at hp
      simp only [] at hp
      by_cases hsplit : M < _days_between s e
      · rw [dif_pos hsplit] at hp
        simp only [_days_between] at hsplit
        have hmid1 : s ≤ s + (e - s) / 2 := by omega
        have hmid2 : s + (e - s) / 2 + 1 ≤ e := by omega
        have hfuel1 : (s + (e - s) / 2 - s).toNat ≤ n := by omega
        have hfuel2 : (e - (s + (e - s) / 2 + 1)).toNat ≤ n := by omega
        rcases hr1 : (_attempt backend M hM s (s + (e - s) / 2)).result with _ | err1
        · simp only [hr1] at hp
          simp only [AttemptOutcome.trace, List.mem_cons, List.mem_append] at hp
          rcases hp with rfl | hp | hp
          · exact hse
          · exact ih s (s + (e - s) / 2) hfuel1 hmid1 p hp
          · exact ih (s + (e - s) / 2 + 1) e hfuel2 hmid2 p hp
        · simp only [hr1] at hp
          simp only [AttemptOutcome.trace, List.mem_cons] at hp
          rcases hp with rfl | hp
          · exact hse
          · exact ih s (s + (e - s) / 2) hfuel1 hmid1 p hp
      · rw [dif_neg hsplit] at hp
        simp at hp
        simp [hp, hse]

/-- C5: for `min_split_days = M ≥ 1` the recursive backfill driver is a
total function (the Lean model recurses on the strictly decreasing day
count); its depth of splitting is at most `k` whenever the range's day
count is at most `M * 2^k` — the integer form of the
`ceil(log2(D / M))` bound; every sub-range it ever submits spans at least
one day; and a failure on a window of at most `M` days is propagated
unchanged after a single submission, with no further splitting. -/
theorem attempt_termination_bound (backend : ℤ → ℤ → Option JobError)
    (M : ℤ) (hM : 1 ≤ M) (s e : ℤ) (k : Nat) :
    (_days_between s e ≤ M * 2 ^ k → (_attempt backend M hM s e).levels ≤ k) ∧
    (s ≤ e → ∀ p ∈ (_attempt backend M hM s e).trace, p.1 ≤ p.2) ∧
    (∀ err, _days_between s e ≤ M → backend s e = some err →
      _attempt backend M hM s e = ⟨[(s, e)], 0, some err⟩) :=
  ⟨fun hd => attempt_levels_le backend M hM k s e hd,
   fun hse => attempt_trace_valid_aux backend M hM (e - s).toNat s e le_rfl hse,
   fun err hd hb => attempt_leaf backend M hM s e err hd hb⟩

/-- C5 witness: the bound evaluated on a failing 16-day backfill (days
0..15) with `min_split_days = 7`: day count `16 ≤ 7 * 2^2`, so at most two
split levels (exactly two occur), every submitted sub-range is nonempty,
and the same failure on the 7-day window 0..6 propagates unsplit. -/
theorem attempt_termination_bound_witness :
    _days_between 0 15 ≤ 7 * 2 ^ 2 ∧
    (_attempt (fun _ _ => some .jobFailed) 7 (by norm_num) 0 15).levels ≤ 2 ∧
    ((0 : ℤ) ≤ 15 ∧
      ∀ p ∈ (_attempt (fun _ _ => some .jobFailed) 7 (by norm_num) 0 15).trace,
        p.1 ≤ p.2) ∧
    _attempt (fun _ _ => some .jobFailed) 7 (by norm_num) 0 6 =
      ⟨[(0, 6)], 0, some .jobFailed⟩ := by
  refine ⟨by decide, ?_, ⟨by decide, ?_⟩, ?_⟩
  · exact (attempt_termination_bound (fun _ _ => some .jobFailed) 7
      (by norm_num) 0 15 2).1 (by decide)
  · exact (attempt_termination_bound (fun _ _ => some .jobFailed) 7
      (by norm_num) 0 15 2).2.1 (by decide)
  · exact (attempt_termination_bound (fun _ _ => some .jobFailed) 7
      (by norm_num) 0 6 2).2.2 .jobFailed (by decide) rfl
